import Mathlib

/-!
Verification of the amquery core against its natural-language specification.

The development shallowly embeds the Python sources:
* `src/src/metrics.py` (Jaccard and Jensen-Shannon distances),
* `src/src/python/obj_func.py` (landmark objective function),
* `src/amquery/core/distance/pwmatrix/_pwmatrix.py` (pairwise distance cache),
* `src/src/python/src/lib/ga.py` (genetic algorithm engine).

Machine floats are modelled as exact rationals; the transcendental
functions `log2` and `sqrt` used by the Jensen-Shannon metric are passed
as explicit function parameters, so every definition stays computable.
-/

namespace Amquery

/-! ## src/src/metrics.py -/

/-- Embeds `hash_to_set` (metrics.py line 3): `set(x.values())` — the set of
the VALUES of the frequency map, not of its keys.  A frequency map is an
association list from k-mer (coded as a natural) to occurrence count. -/
def hash_to_set (h : List (ℕ × ℕ)) : Finset ℕ :=
  (h.map Prod.snd).toFinset

/-- The key set of a frequency map (used by the spec's wording of Jaccard). -/
def keySet (h : List (ℕ × ℕ)) : Finset ℕ :=
  (h.map Prod.fst).toFinset

/-- Embeds `jaccard` (metrics.py lines 7-12): `1 - intersection/union` where
both sets come from `hash_to_set`, and `union = len(x) + len(y) - intersection`. -/
def jaccard (hx hy : List (ℕ × ℕ)) : ℚ :=
  let x := hash_to_set hx
  let y := hash_to_set hy
  let intersection := (x ∩ y).card
  let union := x.card + y.card - intersection
  1 - (intersection : ℚ) / (union : ℚ)

/-- Refinement counterpart written from the spec's words: Jaccard distance on
the KEY sets of the two frequency maps (counts ignored, presence only). -/
def jaccardBySpec (hx hy : List (ℕ × ℕ)) : ℚ :=
  1 - ((keySet hx ∩ keySet hy).card : ℚ) / ((keySet hx ∪ keySet hy).card : ℚ)

/-- A `defaultdict(int)`: a finite key set plus a count function;
lookups outside the key set give 0. -/
structure FreqDict where
  keys : Finset ℕ
  cnt : ℕ → ℕ

/-- `hx[key]` on a `defaultdict(int)`. -/
def FreqDict.get (d : FreqDict) (k : ℕ) : ℕ :=
  if k ∈ d.keys then d.cnt k else 0

/-- One summand of the Jensen-Shannon divergence, `p * log2(2p/(p+q))`,
with the NaN-suppression of metrics.py lines 39-40: whenever `p = 0` the
term (which floats evaluate to NaN) is replaced by 0.  For `p ≠ 0` the
float expression is finite, so exact arithmetic is faithful. -/
def jsdTerm (log2 : ℚ → ℚ) (p q : ℚ) : ℚ :=
  if p = 0 then 0 else p * log2 (2 * p / (p + q))

/-- Embeds `JSD` (metrics.py lines 23-41).  `log2` and `sqrtFn` stand for the
float transcendentals `np.log2` and `np.sqrt`; everything else is the exact
image of the code: normalize both maps over the key union, sum the two
per-key divergence terms, halve, and take the square root. -/
def JSD (log2 sqrtFn : ℚ → ℚ) (hx hy : FreqDict) : ℚ :=
  let U := hx.keys ∪ hy.keys
  let sx : ℚ := ∑ k ∈ U, (hx.get k : ℚ)
  let sy : ℚ := ∑ k ∈ U, (hy.get k : ℚ)
  let xv : ℕ → ℚ := fun k => (hx.get k : ℚ) / sx
  let yv : ℕ → ℚ := fun k => (hy.get k : ℚ) / sy
  sqrtFn (1/2 * ∑ k ∈ U, (jsdTerm log2 (xv k) (yv k) + jsdTerm log2 (yv k) (xv k)))

/-! ## src/src/python/obj_func.py -/

/-- `np.delete(dm, ixs, axis=1)`: drop the columns whose index lies in `ixs`. -/
def npDeleteCols (dm : List (List ℚ)) (ixs : List ℕ) : List (List ℚ) :=
  dm.map (fun row => ((row.enum.filter (fun p => p.1 ∉ ixs)).map Prod.snd))

/-- `np.delete(dm, ixs, axis=0)`: drop the rows whose index lies in `ixs`. -/
def npDeleteRows (dm : List (List ℚ)) (ixs : List ℕ) : List (List ℚ) :=
  (dm.enum.filter (fun p => p.1 ∉ ixs)).map Prod.snd

/-- `set(np.arange(len(keys))) - set(keys_idx)` from `choose`. -/
def outerIx (nKeys : ℕ) (keysIdx : List ℕ) : List ℕ :=
  (List.range nKeys).filter (fun i => i ∉ keysIdx)

/-- Embeds `choose` (obj_func.py lines 9-13): first delete the non-landmark
columns, then delete the rows at the landmark indices themselves. -/
def choose (dm : List (List ℚ)) (nKeys : ℕ) (keysIdx : List ℕ) : List (List ℚ) :=
  npDeleteRows (npDeleteCols dm (outerIx nKeys keysIdx)) keysIdx

/-- Grand sum of all matrix entries, the image of the two
`np.apply_along_axis(sum, ...)` reductions in `get_total_partcorr`. -/
def grandSum (m : List (List ℚ)) : ℚ :=
  (m.map (fun row => row.sum)).sum

/-- Embeds `get_total_partcorr` (obj_func.py lines 16-21).  The
partial-correlation computation itself lives in the `partial_corr` module,
which is not part of the repository sources, so it is taken as an opaque
matrix-to-matrix parameter `pc`. -/
def get_total_partcorr (pc : List (List ℚ) → List (List ℚ))
    (dm : List (List ℚ)) (nKeys : ℕ) (keysIdx : List ℕ) : ℚ :=
  grandSum (pc (choose dm nKeys keysIdx))

/-- Direct description of what `choose` computes: keep exactly the rows whose
index is NOT a landmark index, each restricted to the landmark columns. -/
def restrictDropLandmarkRows (dm : List (List ℚ)) (keysIdx : List ℕ) : List (List ℚ) :=
  ((dm.enum.filter (fun p => p.1 ∉ keysIdx)).map Prod.snd).map
    (fun row => (row.enum.filter (fun p => p.1 ∈ keysIdx)).map Prod.snd)

/-- The restriction the spec describes for claim C4: ALL rows are retained
(including the landmark rows), only the landmark columns are kept. -/
def restrictAllRowsBySpec (dm : List (List ℚ)) (keysIdx : List ℕ) : List (List ℚ) :=
  dm.map (fun row => (row.enum.filter (fun p => p.1 ∈ keysIdx)).map Prod.snd)

/-! ## src/amquery/core/distance/pwmatrix/_pwmatrix.py — lazy cell access

The pandas dataframe is modelled by its column labels plus the set of
known (non-NaN) cells; `cells` is keyed by `(column label, row label)`,
mirroring the `dataframe[a.name][b.name]` access path.  A pair absent
from `cells` is a NaN cell. -/

structure PwState where
  labels : List String
  cells : List ((String × String) × ℚ)

/-- Read the cell at column `a`, row `b`; `none` models NaN. -/
def cellLookup (cells : List ((String × String) × ℚ)) (a b : String) : Option ℚ :=
  (cells.find? (fun c => c.1.1 == a && c.1.2 == b)).map Prod.snd

/-- Embeds `PwMatrix.add_sample` (lines 67-74): a new label gets one fresh
column and one fresh row, all cells NaN (hence no entry in `cells`);
an existing label is left untouched. -/
def addSample (st : PwState) (name : String) : PwState :=
  if name ∈ st.labels then st
  else { st with labels := st.labels ++ [name] }

/-- Embeds `PwMatrix.__getitem__` (lines 76-89).  `metric a b` stands for
`distfunc(a.kmer_index, b.kmer_index)`.  Returns the value, the updated
state, and how many times the metric was invoked by this access.
On a NaN cell the computed value is written to the `(a, b)` cell ONLY —
the code has no write to the transposed `(b, a)` cell. -/
def getitem (metric : String → String → ℚ) (st : PwState) (a b : String) :
    ℚ × PwState × ℕ :=
  let st2 := addSample (addSample st a) b
  match cellLookup st2.cells a b with
  | some v => (v, st2, 0)
  | none =>
      let v := metric a b
      (v, { st2 with cells := ((a, b), v) :: st2.cells }, 1)

/-- Two successive accesses, `(a, b)` then `(b, a)`, counting the total
number of metric invocations — the scenario of claim C2. -/
def accessBothOrders (metric : String → String → ℚ) (st : PwState) (a b : String) :
    PwState × ℕ :=
  let r1 := getitem metric st a b
  let r2 := getitem metric r1.2.1 b a
  (r2.2.1, r1.2.2 + r2.2.2)

/-! ## _pwmatrix.py — save / load round trip

`save` writes the dataframe with `index=False` (row labels dropped) and
`na_rep="N/A"`; `load` reads the table back and reconstructs the row index
from the column header (`dataframe['id'] = dataframe.keys()`).  The cells
are modelled positionally here: `cells` is the full rectangular table of
`Option ℚ` (NaN as `none`).  The numeric token codec of pandas is passed
in as an encoder `enc` into an arbitrary token type `τ` together with the
sentinel token `na` and a decoder `dec`. -/

structure PwFrame where
  cols : List String
  rowIdx : List String
  cells : List (List (Option ℚ))

structure SavedTable (τ : Type) where
  header : List String
  rows : List (List τ)

/-- Serialize one cell: NaN becomes the explicit sentinel `na`, a known
value is encoded by `enc`. -/
def saveCell {τ : Type} (enc : ℚ → τ) (na : τ) : Option ℚ → τ
  | none => na
  | some q => enc q

/-- Parse one cell the way `pd.read_csv` does: the sentinel token gives NaN,
any other token is decoded as a number. -/
def loadCell {τ : Type} [DecidableEq τ] (dec : τ → ℚ) (na : τ) (t : τ) : Option ℚ :=
  if t = na then none else some (dec t)

/-- Embeds `PwMatrix.save` (lines 60-65): header only, `index=False`,
`na_rep` sentinel for NaN cells. -/
def pwSave {τ : Type} (enc : ℚ → τ) (na : τ) (f : PwFrame) : SavedTable τ :=
  { header := f.cols
    rows := f.cells.map (fun row => row.map (saveCell enc na)) }

/-- Embeds `PwMatrix.load` (lines 46-58): read the table, then set the row
index to the column header (`dataframe['id'] = dataframe.keys()`). -/
def pwLoad {τ : Type} [DecidableEq τ] (dec : τ → ℚ) (na : τ) (t : SavedTable τ) : PwFrame :=
  { cols := t.header
    rowIdx := t.header
    cells := t.rows.map (fun row => row.map (loadCell dec na)) }

/-! ## src/src/python/src/lib/ga.py — Individual

Genes are integers (the landmark indices of the chromosome).  The random
draws of `np.random.binomial` are passed in explicitly as 0/1 masks, so
every operation is a deterministic function of its random input. -/

structure PyInd where
  mutationRate : ℚ
  engine : List (ℤ → ℤ)
  chrom : List ℤ

instance : Inhabited PyInd := ⟨⟨0, [], []⟩⟩

/-- Embeds `Individual._mutate` (ga.py lines 145-157):
`[gen(val) if mutate else val for (val, mutate, gen) in zip(chromosome, mutation_mask, engine)]`.
`mask` is the `np.random.binomial(1, mutation_rate, len(chromosome))` draw. -/
def indMutate (mask : List ℕ) (chrom : List ℤ) (engine : List (ℤ → ℤ)) : List ℤ :=
  (chrom.zip (mask.zip engine)).map
    (fun p => if p.2.1 ≠ 0 then p.2.2 p.1 else p.1)

/-- Embeds `Individual._crossover` (ga.py lines 159-169).  Note the exact
image of line 169: `[a if ch else b for (a, b, ch) in zip(choice_mask, chr1, chr2)]`
— the tuple is unpacked as `a := mask bit`, `b := gene of chr1`,
`ch := gene of chr2`, so the result gene is the 0/1 MASK BIT whenever the
second chromosome's gene is truthy (nonzero), and chr1's gene otherwise. -/
def indCrossover (choiceMask : List ℕ) (chr1 chr2 : List ℤ) : Except String (List ℤ) :=
  if chr1.length ≠ chr2.length then .error "Incompatible species cant mate"
  else .ok ((choiceMask.zip (chr1.zip chr2)).map
    (fun p => if p.2.2 ≠ 0 then (p.1 : ℤ) else p.2.1))

/-- `Individual.replicate` (ga.py lines 171-172) with its binomial draw
passed in as `mask`. -/
def indReplicate (mask : List ℕ) (ind : PyInd) : List ℤ :=
  indMutate mask ind.chrom ind.engine

/-- Embeds `Individual.mate` (ga.py lines 174-183): replicate both parents
(with their respective mutation-mask draws), cross the two replicated
chromosomes with the `choice_mask` draw, and wrap the offspring chromosome
into a new individual with the same engine and mutation rate. -/
def indMate (mask1 mask2 choiceMask : List ℕ) (self other : PyInd) :
    Except String PyInd :=
  (indCrossover choiceMask (indReplicate mask1 self) (indReplicate mask2 other)).map
    (fun off => { mutationRate := self.mutationRate, engine := self.engine, chrom := off })

/-- The all-zero binomial mask: the almost-sure draw of
`np.random.binomial(1, 0.0, n)`, i.e. mutation rate 0. -/
def zeroMask (n : ℕ) : List ℕ := List.replicate n 0

/-! ## ga.py — Population

An evaluated individual `(fitness, individual)` as stored in the
population lists.  `eid` models the Python object identity (`id()`) of the
tuple: every tuple created during a run gets a fresh identity. -/

structure Entry where
  eid : ℕ
  fit : ℤ
  ind : PyInd

instance : Inhabited Entry := ⟨⟨0, 0, default⟩⟩

/-- Stable insertion into a list sorted by the boolean relation `le`:
the new element goes after every already-present element it does not
strictly precede.  Used to model Python's stable `sorted`. -/
def insSorted {α : Type} (le : α → α → Bool) (e : α) : List α → List α
  | [] => [e]
  | x :: xs => if le x e then x :: insSorted le e xs else e :: x :: xs

/-- Stable insertion sort, behaviourally equal to Python's stable `sorted`
with comparison `le`. -/
def pySorted {α : Type} (le : α → α → Bool) (l : List α) : List α :=
  l.foldr (insSorted le) []

/-- The comparison used by `Population._select` and
`Population._update_legends`: `sorted(..., key=lambda x: x[0], reverse=self._maximize)`. -/
def rankLe (maximize : Bool) (x y : Entry) : Bool :=
  if maximize then decide (y.fit ≤ x.fit) else decide (x.fit ≤ y.fit)

/-- Rank the evaluated population by fitness, descending when maximizing,
ascending when minimizing. -/
def rankPop (maximize : Bool) (pop : List Entry) : List Entry :=
  pySorted (rankLe maximize) pop

/-- Draw without replacement, consuming the index stream `idxs` starting at
position `t`; each draw picks the element at `idxs t mod (remaining length)`. -/
def sampleGo {α : Type} [Inhabited α] (idxs : ℕ → ℕ) : ℕ → List α → ℕ → List α
  | _, _, 0 => []
  | t, l, k + 1 =>
      let i := idxs t % l.length
      l.getD i default :: sampleGo idxs (t + 1) (l.eraseIdx i) k

/-- Embeds `random.sample(l, k)`: raises `ValueError` when `k` exceeds the
population, otherwise draws `k` distinct positions. -/
def pyRandomSample {α : Type} [Inhabited α] (idxs : ℕ → ℕ) (l : List α) (k : ℕ) :
    Except String (List α) :=
  if l.length < k then .error "Sample larger than population or is negative"
  else .ok (sampleGo idxs 0 l k)

/-- Embeds `Population._select` (ga.py lines 276-292): rank the evaluated
population, keep the top `n_fittest`, then draw `n_random_unfit` from the
remainder without replacement. -/
def pySelect (maximize : Bool) (idxs : ℕ → ℕ) (pop : List Entry)
    (nFittest nRandomUnfit : ℕ) : Except String (List Entry) :=
  let ranked := rankPop maximize pop
  (pyRandomSample idxs (ranked.drop nFittest) nRandomUnfit).map
    (fun unfit => ranked.take nFittest ++ unfit)

/-- `Population._filter_duplicates_by_id` (ga.py lines 294-301): the dict
comprehension keyed by `id(obj)` keeps one representative per object
identity, in first-occurrence order. -/
def dedupById (l : List Entry) : List Entry :=
  l.foldl (fun acc e => if acc.any (fun x => x.eid == e.eid) then acc else acc ++ [e]) []

/-- Embeds `Population._update_legends` (ga.py lines 303-315): merge the
contenders with the current legends, drop duplicate object identities,
re-rank by fitness and truncate to the legend capacity. -/
def updateLegends (maximize : Bool) (nLegends : ℕ)
    (contenders legends : List Entry) : List Entry :=
  (rankPop maximize (dedupById (contenders ++ legends))).take nLegends

/-! ## ga.py — random_pairs (lines 363-371)

`random_pairs` loops `while len(pairs) != n`, drawing
`random.sample(indices, 2)` each time.  The draw is modelled by decoding
one element of the stream `draws` into a pair of distinct indices below
`s`; `random.sample` itself raises when fewer than 2 indices exist.  The
loop is given explicit fuel: a result of `none` for EVERY fuel value is
non-termination. -/

/-- Decode one raw random draw into an unordered sample of two distinct
indices below `s` (meaningful for `s ≥ 2`). -/
def decodeDraw (s : ℕ) (d : ℕ × ℕ) : ℕ × ℕ :=
  let i := d.1 % s
  let j0 := d.2 % (s - 1)
  (i, if i ≤ j0 then j0 + 1 else j0)

/-- The `while len(pairs) != n` loop of `random_pairs`, with fuel.  `n` is an
integer because `_repopulate` can call it with a negative count. -/
def randomPairsGo (draws : ℕ → ℕ × ℕ) (s : ℕ) (n : ℤ) :
    ℕ → ℕ → List (ℕ × ℕ) → Option (Except String (List (ℕ × ℕ)))
  | 0, _, _ => none
  | fuel + 1, t, pairs =>
      if (pairs.length : ℤ) = n then some (.ok pairs)
      else if s < 2 then some (.error "Sample larger than population or is negative")
      else
        if decodeDraw s (draws t) ∈ pairs ∨
            ((decodeDraw s (draws t)).2, (decodeDraw s (draws t)).1) ∈ pairs then
          randomPairsGo draws s n fuel (t + 1) pairs
        else
          randomPairsGo draws s n fuel (t + 1) (pairs ++ [decodeDraw s (draws t)])

/-- Embeds `random_pairs(sequence, n)` at the level of indices: `s` is
`len(sequence)`. -/
def random_pairs (draws : ℕ → ℕ × ℕ) (fuel : ℕ) (s : ℕ) (n : ℤ) :
    Option (Except String (List (ℕ × ℕ))) :=
  randomPairsGo draws s n fuel 0 []

/-! ## ga.py — repopulation and one generation -/

/-- Per-mating random input: the two replication masks and the crossover
choice mask of `Individual.mate`. -/
structure MateRnd where
  mask1 : List ℕ
  mask2 : List ℕ
  choiceMask : List ℕ

/-- `Population._mate_and_evaluate` (ga.py lines 271-274): mate one pair and
evaluate the offspring, wrapping it into a tuple whose object identity is
the fresh id `nid`. -/
def mateAndEvaluate (fitness : PyInd → ℤ) (rnd : MateRnd) (nid : ℕ)
    (p : PyInd × PyInd) : Except String Entry :=
  (indMate rnd.mask1 rnd.mask2 rnd.choiceMask p.1 p.2).map
    (fun off => { eid := nid, fit := fitness off, ind := off })

/-- Mate every drawn pair (given as index pairs into the survivor list),
in order, allocating one fresh object identity per offspring tuple.
`k` counts the matings already performed (it indexes the random stream). -/
def mateAll (fitness : PyInd → ℤ) (mateRnd : ℕ → MateRnd) (inds : List PyInd) :
    List (ℕ × ℕ) → ℕ → ℕ → Except String (List Entry)
  | [], _, _ => .ok []
  | p :: ps, nid, k =>
      match mateAndEvaluate fitness (mateRnd k) nid
          (inds.getD p.1 default, inds.getD p.2 default) with
      | .error e => .error e
      | .ok e =>
          match mateAll fitness mateRnd inds ps (nid + 1) (k + 1) with
          | .error e2 => .error e2
          | .ok rest => .ok (e :: rest)

/-- Embeds `Population._repopulate` (ga.py lines 256-269): draw
`size - len(evaluated_ancestors)` distinct unordered mating pairs from the
current survivors, mate and evaluate them, and prepend the offspring to the
ancestors (`op.iadd(list(evaluated_offsprings), evaluated_ancestors)`).
Returns `none` when the pair-drawing loop never terminates within `fuel`. -/
def repopulate (fitness : PyInd → ℤ) (mateRnd : ℕ → MateRnd)
    (draws : ℕ → ℕ × ℕ) (fuel : ℕ) (size : ℕ) (ea : List Entry) (nextId : ℕ) :
    Option (Except String (List Entry × ℕ)) :=
  let inds := ea.map (·.ind)
  let nPairs : ℤ := (size : ℤ) - (ea.length : ℤ)
  match random_pairs draws fuel inds.length nPairs with
  | none => none
  | some (.error e) => some (.error e)
  | some (.ok idxPairs) =>
      match mateAll fitness mateRnd inds idxPairs nextId 0 with
      | .error e => some (.error e)
      | .ok offspring => some (.ok (offspring ++ ea, nextId + idxPairs.length))

/-- Evolution state: the current generation's evaluated survivors, the
legend list, and the next free object identity. -/
structure GenState where
  cur : List Entry
  legends : List Entry
  nextId : ℕ

/-- Embeds `Population._run_generation` (ga.py lines 317-333): repopulate,
select, and update the legend list with the first `n_legends` selected. -/
def runGeneration (fitness : PyInd → ℤ) (mateRnd : ℕ → MateRnd)
    (draws : ℕ → ℕ × ℕ) (idxs : ℕ → ℕ) (fuel : ℕ) (maximize : Bool)
    (size nLegends : ℕ) (nFittest nRandomUnfit : ℕ) (st : GenState) :
    Option (Except String GenState) :=
  match repopulate fitness mateRnd draws fuel size st.cur st.nextId with
  | none => none
  | some (.error e) => some (.error e)
  | some (.ok (pop, nid)) =>
      match pySelect maximize idxs pop nFittest nRandomUnfit with
      | .error e => some (.error e)
      | .ok selected =>
          some (.ok { cur := selected
                      legends := updateLegends maximize nLegends
                        (selected.take nLegends) st.legends
                      nextId := nid })

/-- The random inputs consumed by one generation. -/
structure GenRnd where
  mateRnd : ℕ → MateRnd
  draws : ℕ → ℕ × ℕ
  idxs : ℕ → ℕ
  fuel : ℕ

/-- The generator loop body of `Population.evolve` (ga.py lines 357-360):
run `nGen` generations, yielding the legend list after each one.  `rnd g`
supplies the random draws of generation `g`. -/
def evolveGo (fitness : PyInd → ℤ) (rnd : ℕ → GenRnd) (maximize : Bool)
    (size nLegends nFittest nRandomUnfit : ℕ) :
    ℕ → ℕ → GenState → Option (Except String (List (List Entry)))
  | _, 0, _ => some (.ok [])
  | g, nGen + 1, st =>
      match runGeneration fitness (rnd g).mateRnd (rnd g).draws (rnd g).idxs
          (rnd g).fuel maximize size nLegends nFittest nRandomUnfit st with
      | none => none
      | some (.error e) => some (.error e)
      | some (.ok st2) =>
          match evolveGo fitness rnd maximize size nLegends nFittest
              nRandomUnfit (g + 1) nGen st2 with
          | none => none
          | some (.error e) => some (.error e)
          | some (.ok snaps) => some (.ok (st2.legends :: snaps))

/-- Embeds `Population.evolve` (ga.py lines 335-360): validate the selection
sizes, then run the generation loop starting from the evaluated ancestors
(each ancestor tuple already has its own object identity). -/
def evolve (fitness : PyInd → ℤ) (rnd : ℕ → GenRnd) (maximize : Bool)
    (size nLegends : ℕ) (evaluatedAncestors : List Entry)
    (nFittest nRandomUnfit nGen : ℕ) :
    Option (Except String (List (List Entry))) :=
  if size < nFittest + nRandomUnfit then
    some (.error "Population size is too small to fit n_fittest + n_unfit")
  else
    evolveGo fitness rnd maximize size nLegends nFittest nRandomUnfit 0 nGen
      { cur := evaluatedAncestors, legends := [],
        nextId := evaluatedAncestors.length }

/-! ## ga.py — Population construction (lines 194-247)

Fitness values returned by a user's fitness function are arbitrary Python
objects; `PyVal` distinguishes comparable numbers from non-comparable
objects, and `Option PyVal` adds the Python `None`.  The call itself can
raise (`PyErr`); `TypeError` and `AttributeError` are the two classes the
constructor converts into `ValueError`. -/

inductive PyVal
  | num (q : ℚ)
  | obj (tag : ℕ)
deriving DecidableEq

inductive PyErr
  | typeErr
  | attrErr
  | other
deriving DecidableEq

/-- A Python comparison `v < w`: defined for numbers, a `TypeError` for
non-comparable objects. -/
def pyCompare : PyVal → PyVal → Except PyErr Bool
  | .num a, .num b => .ok (decide (a < b))
  | _, _ => .error .typeErr

/-- Embeds `Population.__init__` (ga.py lines 194-247) — the validation
sequence: mode string, positive size, nonempty ancestor sequence of length
at least `size`, positive legend capacity, then the guarded evaluation of
the fitness function on the first ancestor (a `None` result or a raised
`TypeError`/`AttributeError` becomes a `ValueError`), and finally the eager
evaluation of all ancestors. -/
def popInit (ancestors : List PyInd) (size : ℤ)
    (fitness : PyInd → Except PyErr (Option PyVal)) (mode : String)
    (nLegends : ℤ) : Except String (List (Option PyVal × PyInd)) :=
  if mode ≠ "maximize" ∧ mode ≠ "minimize" then
    .error "mode must be maximize or minimize"
  else if size ≤ 0 then .error "size must be a positive integer"
  else
    match ancestors with
    | [] => .error "ancestors must be a nonempty sequence"
    | a0 :: _ =>
        if (ancestors.length : ℤ) < size then
          .error "At least size ancestors are required to start a population"
        else if nLegends ≤ 0 then .error "n_legends must be a positive integer"
        else
          match fitness a0 with
          | .error .typeErr => .error "Your fitness_function doesnt suit your Individuals"
          | .error .attrErr => .error "Your fitness_function doesnt suit your Individuals"
          | .error .other => .error "uncaught exception"
          | .ok none => .error "fitness_function mustnt return NoneType values"
          | .ok (some _) =>
              match ancestors.mapM fitness with
              | .error _ => .error "uncaught exception"
              | .ok fits => .ok (fits.zip ancestors)

/-! ## Supporting lemmas: metrics -/

lemma jsdTerm_self (log2 : ℚ → ℚ) (hlog : log2 1 = 0) (p : ℚ) :
    jsdTerm log2 p p = 0 := by
  unfold jsdTerm
  split_ifs with h
  · rfl
  · rw [show p + p = 2 * p by ring, div_self (mul_ne_zero two_ne_zero h), hlog, mul_zero]

/-! ## Claim theorems: metrics (C3, C8) -/

/-- C3 counterexample-style evaluation: `jaccard` is computed on the VALUE
sets of the frequency maps, so the maps `[(1, 7)]` and `[(2, 7)]` — whose
key sets are disjoint, which per the claim must give distance 1 — get
distance 0 from the code, because both have value set `[7]`.  The spec-side
key-set Jaccard of the same inputs is 1. -/
theorem C3_jaccard_value_sets_eval :
    jaccard [(1, 7)] [(2, 7)] = 0 ∧
    jaccardBySpec [(1, 7)] [(2, 7)] = 1 ∧
    keySet [(1, 7)] ∩ keySet [(2, 7)] = ∅ := by
  refine ⟨?_, ?_, ?_⟩
  · norm_num [jaccard, hash_to_set]
  · have h1 : (keySet [(1, 7)] ∩ keySet [(2, 7)]).card = 0 := by decide
    have h2 : (keySet [(1, 7)] ∪ keySet [(2, 7)]).card = 2 := by decide
    rw [jaccardBySpec, h1, h2]
    norm_num
  · decide

/-- C8: both metric functions are symmetric, and each returns 0 on a map
compared with itself.  For `jaccard` the self-map must be nonempty (an
empty map divides by zero).  For `JSD` the transcendentals are abstract
parameters: symmetry holds for any of them, and self-distance 0 needs only
`log2 1 = 0` and `sqrt 0 = 0`, plus a nonempty key set with a positive
total count (the regime where the float evaluation is NaN-free and the
exact model is faithful). -/
theorem C8_metrics_symmetric_and_identity :
    (∀ hx hy : List (ℕ × ℕ), jaccard hx hy = jaccard hy hx) ∧
    (∀ hx : List (ℕ × ℕ), hx ≠ [] → jaccard hx hx = 0) ∧
    (∀ (log2 sq : ℚ → ℚ) (hx hy : FreqDict),
      JSD log2 sq hx hy = JSD log2 sq hy hx) ∧
    (∀ (log2 sq : ℚ → ℚ) (hx : FreqDict), log2 1 = 0 → sq 0 = 0 →
      hx.keys.Nonempty → 0 < ∑ k ∈ hx.keys, hx.get k →
      JSD log2 sq hx hx = 0) := by
  refine ⟨?_, ?_, ?_, ?_⟩
  · intro hx hy
    simp only [jaccard]
    rw [Finset.inter_comm, Nat.add_comm]
  · intro hx hne
    obtain ⟨p, hp⟩ : ∃ p, p ∈ hx := by
      cases hx with
      | nil => exact absurd rfl hne
      | cons a t => exact ⟨a, List.mem_cons_self a t⟩
    have hmem : p.2 ∈ hash_to_set hx := by
      simp only [hash_to_set, List.mem_toFinset, List.mem_map]
      exact ⟨p, hp, rfl⟩
    have hcard : ((hash_to_set hx).card : ℚ) ≠ 0 := by
      exact_mod_cast Finset.card_ne_zero_of_mem hmem
    simp only [jaccard, Finset.inter_self]
    rw [show (hash_to_set hx).card + (hash_to_set hx).card - (hash_to_set hx).card
      = (hash_to_set hx).card by omega]
    rw [div_self hcard]
    ring
  · intro log2 sq hx hy
    simp only [JSD]
    rw [Finset.union_comm hy.keys hx.keys]
    exact congrArg sq (congrArg (1 / 2 * ·)
      (Finset.sum_congr rfl fun k _ => add_comm _ _))
  · intro log2 sq hx hlog hsq _ _
    simp only [JSD, Finset.union_self]
    have hz : ∀ k ∈ hx.keys,
        jsdTerm log2 ((hx.get k : ℚ) / ∑ j ∈ hx.keys, (hx.get j : ℚ))
          ((hx.get k : ℚ) / ∑ j ∈ hx.keys, (hx.get j : ℚ)) +
        jsdTerm log2 ((hx.get k : ℚ) / ∑ j ∈ hx.keys, (hx.get j : ℚ))
          ((hx.get k : ℚ) / ∑ j ∈ hx.keys, (hx.get j : ℚ)) = 0 := by
      intro k _
      rw [jsdTerm_self log2 hlog, add_zero]
    rw [Finset.sum_congr rfl hz, Finset.sum_const, smul_zero, mul_zero, hsq]

/-- Witness for C8 at concrete inputs: the abstract transcendentals are
instantiated with computable stand-ins satisfying `log2 1 = 0` and
`sqrt 0 = 0`. -/
theorem C8_metrics_witness :
    jaccard [(1, 2)] [(3, 4)] = jaccard [(3, 4)] [(1, 2)] ∧
    jaccard [(5, 6)] [(5, 6)] = 0 ∧
    JSD (fun _ => 0) (fun q => q) ⟨{1}, fun _ => 2⟩ ⟨{2}, fun _ => 3⟩ =
      JSD (fun _ => 0) (fun q => q) ⟨{2}, fun _ => 3⟩ ⟨{1}, fun _ => 2⟩ ∧
    JSD (fun _ => 0) (fun q => q) ⟨{1, 2}, fun k => k⟩ ⟨{1, 2}, fun k => k⟩ = 0 :=
  ⟨C8_metrics_symmetric_and_identity.1 _ _,
   C8_metrics_symmetric_and_identity.2.1 _ (by simp),
   C8_metrics_symmetric_and_identity.2.2.1 _ _ _ _,
   C8_metrics_symmetric_and_identity.2.2.2 _ _ _ rfl rfl (by decide) (by decide)⟩

/-! ## Supporting lemmas: the objective function (C4) -/

/-- Deleting rows commutes with a per-row transformation. -/
lemma npDeleteRows_map (f : List ℚ → List ℚ) (dm : List (List ℚ)) (ixs : List ℕ) :
    npDeleteRows (dm.map f) ixs = (npDeleteRows dm ixs).map f := by
  unfold npDeleteRows
  rw [List.enum_map, List.filter_map, List.map_map, List.map_map]
  have hp : ((fun p : ℕ × List ℚ => decide (p.1 ∉ ixs)) ∘ Prod.map id f) =
      (fun p : ℕ × List ℚ => decide (p.1 ∉ ixs)) :=
    funext fun p => by cases p; rfl
  rw [hp]
  exact List.map_congr_left (fun p _ => by cases p; rfl)

/-- For an index below `n`, NOT being in `outerIx n idx` is the same as
being in `idx`. -/
lemma not_mem_outerIx_iff (n : ℕ) (idx : List ℕ) (i : ℕ) (hi : i < n) :
    i ∉ outerIx n idx ↔ i ∈ idx := by
  unfold outerIx
  simp only [List.mem_filter, List.mem_range, decide_eq_true_eq]
  constructor
  · intro h
    by_contra hni
    exact h ⟨hi, hni⟩
  · intro h hc
    exact hc.2 h

/-- Column deletion via `outerIx` keeps exactly the landmark columns of a
row of width `n`. -/
lemma colFilter_outerIx (n : ℕ) (idx : List ℕ) (row : List ℚ) (hrow : row.length = n) :
    (row.enum.filter (fun p => p.1 ∉ outerIx n idx)).map Prod.snd =
    (row.enum.filter (fun p => p.1 ∈ idx)).map Prod.snd := by
  congr 1
  apply List.filter_congr
  intro p hp
  have hlt : p.1 < n := by
    rcases p with ⟨i, v⟩
    exact hrow ▸ (List.mem_enum hp).1
  exact decide_eq_decide.mpr (not_mem_outerIx_iff n idx p.1 hlt)

/-- What `choose` actually computes on a matrix with rows of width `n`:
the landmark ROWS are deleted, and only the landmark columns are kept. -/
lemma choose_eq_restrictDropLandmarkRows (dm : List (List ℚ)) (idx : List ℕ)
    (n : ℕ) (hrow : ∀ row ∈ dm, row.length = n) :
    choose dm n idx = restrictDropLandmarkRows dm idx := by
  unfold choose npDeleteCols restrictDropLandmarkRows
  rw [npDeleteRows_map]
  apply List.map_congr_left
  intro row hmem
  have hrmem : row ∈ dm := by
    unfold npDeleteRows at hmem
    simp only [List.mem_map, List.mem_filter] at hmem
    obtain ⟨p, hp, hpe⟩ := hmem
    have := List.mem_enum hp.1
    subst hpe
    exact this.2 ▸ List.getElem_mem this.1
  exact colFilter_outerIx n idx row (hrow row hrmem)

/-! ## Claim theorems: objective function (C4) -/

/-- C4 counterexample: on the concrete symmetric zero-diagonal distance
matrix `[[0,1,2],[1,0,3],[2,3,0]]` with landmark indices `[0, 1]` and the
identity in place of the opaque partial-correlation step, the code's
objective is 5, while the grand sum over the spec's restriction — all rows,
landmark columns — is 7: the landmark samples' own rows are NOT retained. -/
theorem C4_objective_counterexample :
    get_total_partcorr id [[0, 1, 2], [1, 0, 3], [2, 3, 0]] 3 [0, 1] = 5 ∧
    grandSum (id (restrictAllRowsBySpec [[0, 1, 2], [1, 0, 3], [2, 3, 0]] [0, 1])) = 7 ∧
    (5 : ℚ) ≠ 7 := by
  refine ⟨?_, ?_, by norm_num⟩
  · norm_num [get_total_partcorr, choose, npDeleteCols, npDeleteRows, outerIx,
      grandSum, List.enum, List.enumFrom]
  · norm_num [restrictAllRowsBySpec, grandSum, List.enum, List.enumFrom]

/-- C4 (amended): for every distance matrix whose rows have width `n` and
every landmark index set, the objective equals the grand sum of all entries
of the (opaque) partial-correlation matrix of the distance matrix
restricted to the NON-landmark rows and the landmark columns — the
landmark samples' own rows are deleted, not retained. -/
theorem C4_objective_grand_sum (pc : List (List ℚ) → List (List ℚ))
    (dm : List (List ℚ)) (idx : List ℕ) (n : ℕ)
    (hrow : ∀ row ∈ dm, row.length = n) :
    get_total_partcorr pc dm n idx = grandSum (pc (restrictDropLandmarkRows dm idx)) := by
  unfold get_total_partcorr
  rw [choose_eq_restrictDropLandmarkRows dm idx n hrow]

/-- Witness for C4 at a concrete matrix. -/
theorem C4_objective_grand_sum_witness :
    get_total_partcorr id [[0, 1], [1, 0]] 2 [0] =
      grandSum (id (restrictDropLandmarkRows [[0, 1], [1, 0]] [0])) :=
  C4_objective_grand_sum id [[0, 1], [1, 0]] [0] 2 (by decide)

/-! ## Claim theorems: distance cache (C2, C7) -/

/-- C2 failing-trace evaluation: starting from an empty matrix, accessing
the fresh pair `(a, b)` and then the swapped pair `(b, a)` invokes the
underlying metric TWICE (the claim demands exactly one invocation), because
`__getitem__` writes only the `(a, b)` cell: after the first access the
transposed cell `(b, a)` is still NaN. -/
theorem C2_cache_not_symmetric_eval :
    (accessBothOrders (fun _ _ => 1) ⟨[], []⟩ "a" "b").2 = 2 ∧
    cellLookup (getitem (fun _ _ => 1) ⟨[], []⟩ "a" "b").2.1.cells "b" "a" = none := by
  constructor <;> rfl

/-- C7: saving a distance-cache frame and loading it back preserves every
known cell's value, keeps every unknown cell unknown, and preserves the
labels.  `enc`/`dec` model the numeric cell codec of pandas (a decodable
encoding), `na` the explicit sentinel token, which no encoded number may
collide with; the row index must equal the column labels (which `create`
and `add_sample` maintain), since `save` drops it (`index=False`) and
`load` rebuilds it from the header. -/
theorem C7_save_load_roundtrip {τ : Type} [DecidableEq τ]
    (enc : ℚ → τ) (dec : τ → ℚ) (na : τ) (f : PwFrame)
    (hdec : ∀ q, dec (enc q) = q) (hna : ∀ q, enc q ≠ na)
    (hidx : f.rowIdx = f.cols) :
    pwLoad dec na (pwSave enc na f) = f := by
  obtain ⟨cols, rowIdx, cells⟩ := f
  have hidx2 : rowIdx = cols := hidx
  subst hidx2
  have hcell : ∀ c : Option ℚ, loadCell dec na (saveCell enc na c) = c := by
    intro c
    cases c with
    | none => simp [saveCell, loadCell]
    | some q => simp [saveCell, loadCell, hna q, hdec q]
  have hrows : (cells.map (fun row => row.map (saveCell enc na))).map
      (fun row => row.map (loadCell dec na)) = cells := by
    rw [List.map_map]
    calc cells.map ((fun row : List τ => row.map (loadCell dec na)) ∘
          (fun row : List (Option ℚ) => row.map (saveCell enc na)))
        = cells.map id := by
          apply List.map_congr_left
          intro row _
          show (row.map (saveCell enc na)).map (loadCell dec na) = row
          rw [List.map_map]
          calc row.map (loadCell dec na ∘ saveCell enc na)
              = row.map id := List.map_congr_left (fun c _ => hcell c)
            _ = row := List.map_id row
      _ = cells := List.map_id cells
  unfold pwLoad pwSave
  simp only [hrows]

/-- Witness for C7: a concrete 2-by-2 frame with one known and three
unknown cells, using the identity-style codec into `Option ℚ` tokens. -/
theorem C7_save_load_roundtrip_witness :
    pwLoad (fun t : Option ℚ => t.getD 0) none
      (pwSave some none
        ⟨["a", "b"], ["a", "b"], [[some (1/2), none], [none, none]]⟩) =
      ⟨["a", "b"], ["a", "b"], [[some (1/2), none], [none, none]]⟩ :=
  C7_save_load_roundtrip some (fun t => t.getD 0) none
    ⟨["a", "b"], ["a", "b"], [[some (1/2), none], [none, none]]⟩
    (fun _ => rfl) (fun _ h => Option.noConfusion h) rfl

/-! ## Claim theorems: Individual.mate / crossover (C1) -/

/-- C1 failing-trace evaluation: two single-gene parents with genes 5 and 7
and mutation rate 0 (all-zero mutation masks, so both replicated
chromosomes equal the parent chromosomes) produce the offspring gene 0
under crossover mask `[0]` and 1 under crossover mask `[1]` — the 0/1 mask
bit itself, never one of the parent genes 5 and 7.  Line 169 of ga.py
unpacks `zip(choice_mask, chr1, chr2)` as `(a, b, ch)`, so `a` is the mask
bit and `ch` the second parent's gene. -/
theorem C1_crossover_mask_leak_eval :
    (indMate (zeroMask 1) (zeroMask 1) [0] ⟨0, [fun g => g], [5]⟩
      ⟨0, [fun g => g], [7]⟩).map PyInd.chrom = .ok [0] ∧
    (indMate (zeroMask 1) (zeroMask 1) [1] ⟨0, [fun g => g], [5]⟩
      ⟨0, [fun g => g], [7]⟩).map PyInd.chrom = .ok [1] ∧
    indReplicate (zeroMask 1) ⟨0, [fun g => g], [5]⟩ = [5] ∧
    indReplicate (zeroMask 1) ⟨0, [fun g => g], [7]⟩ = [7] ∧
    ((0 : ℤ) ≠ 5 ∧ (0 : ℤ) ≠ 7 ∧ (1 : ℤ) ≠ 5 ∧ (1 : ℤ) ≠ 7) :=
  ⟨rfl, rfl, rfl, rfl, by decide⟩

/-! ## Supporting lemmas: Population construction (C9) -/

/-- The length of a replicated chromosome: `zip` truncates to the shortest
of chromosome, mutation mask and engine. -/
lemma indReplicate_length (mask : List ℕ) (ind : PyInd) :
    (indReplicate mask ind).length =
      min ind.chrom.length (min mask.length ind.engine.length) := by
  unfold indReplicate indMutate
  rw [List.length_map, List.length_zip, List.length_zip]

/-! ## Claim theorems: Population construction errors (C9) -/

/-- C9 counterexample: a fitness function returning a NON-COMPARABLE value
(an opaque object, whose comparison raises `TypeError`) on the first
ancestor does NOT fail at construction — `__init__` only checks the result
against `None`, and never compares it, so construction succeeds and the
`TypeError` would only surface later inside the generation loop. -/
theorem C9_noncomparable_fitness_passes_init :
    (popInit [⟨0, [], [0]⟩] 1 (fun _ => .ok (some (.obj 0))) "maximize" 1).isOk = true ∧
    pyCompare (.obj 0) (.obj 0) = .error .typeErr :=
  ⟨rfl, rfl⟩

/-- C9 (amended): Population construction fails immediately whenever the
mode string is invalid, the population size or legend capacity is not
positive, the ancestor sequence is empty or shorter than the population
size, or the fitness function returns `None` (or raises
`TypeError`/`AttributeError`) on the first ancestor — but a merely
non-comparable return value is NOT detected at construction; and `mate`
fails with an error whenever the two (replicated) chromosome lengths
differ. -/
theorem C9_construction_validation :
    (∀ ancestors size f mode nLegends, mode ≠ "maximize" → mode ≠ "minimize" →
      (popInit ancestors size f mode nLegends).isOk = false) ∧
    (∀ ancestors size f mode nLegends, size ≤ 0 →
      (popInit ancestors size f mode nLegends).isOk = false) ∧
    (∀ ancestors size f mode nLegends, nLegends ≤ 0 →
      (popInit ancestors size f mode nLegends).isOk = false) ∧
    (∀ size f mode nLegends,
      (popInit [] size f mode nLegends).isOk = false) ∧
    (∀ ancestors size f mode nLegends, (ancestors.length : ℤ) < size →
      (popInit ancestors size f mode nLegends).isOk = false) ∧
    (∀ a0 rest size f mode nLegends, f a0 = .ok none →
      (popInit (a0 :: rest) size f mode nLegends).isOk = false) ∧
    (∀ a0 rest size f mode nLegends, f a0 = .error .typeErr →
      (popInit (a0 :: rest) size f mode nLegends).isOk = false) ∧
    (∀ (m1 m2 cm : List ℕ) (self other : PyInd),
      (indReplicate m1 self).length ≠ (indReplicate m2 other).length →
      indMate m1 m2 cm self other = .error "Incompatible species cant mate") := by
  refine ⟨?_, ?_, ?_, ?_, ?_, ?_, ?_, ?_⟩
  · intro ancestors size f mode nLegends h1 h2
    unfold popInit
    repeat' split
    all_goals simp_all [Except.isOk, Except.toBool]
  · intro ancestors size f mode nLegends h
    unfold popInit
    repeat' split
    all_goals simp_all [Except.isOk, Except.toBool]
  · intro ancestors size f mode nLegends h
    unfold popInit
    repeat' split
    all_goals simp_all [Except.isOk, Except.toBool]
  · intro size f mode nLegends
    unfold popInit
    repeat' split
    all_goals simp_all [Except.isOk, Except.toBool]
  · intro ancestors size f mode nLegends h
    unfold popInit
    repeat' split
    all_goals simp_all [Except.isOk, Except.toBool]
  · intro a0 rest size f mode nLegends h
    unfold popInit
    repeat' split
    all_goals simp_all [Except.isOk, Except.toBool]
  · intro a0 rest size f mode nLegends h
    unfold popInit
    repeat' split
    all_goals simp_all [Except.isOk, Except.toBool]
  · intro m1 m2 cm self other h
    unfold indMate indCrossover
    rw [if_pos h]
    rfl

/-! ## Supporting lemmas: stable sort, sampling, mating (C5, C6) -/

lemma perm_insSorted {α : Type} (le : α → α → Bool) (e : α) (l : List α) :
    List.Perm (insSorted le e l) (e :: l) := by
  induction l with
  | nil => rfl
  | cons x xs ih =>
      unfold insSorted
      split
      · exact ((ih.cons x).trans (List.Perm.swap e x xs))
      · rfl

lemma perm_pySorted {α : Type} (le : α → α → Bool) (l : List α) :
    List.Perm (pySorted le l) l := by
  induction l with
  | nil => rfl
  | cons x xs ih => exact (perm_insSorted le x (pySorted le xs)).trans (ih.cons x)

lemma length_pySorted {α : Type} (le : α → α → Bool) (l : List α) :
    (pySorted le l).length = l.length :=
  (perm_pySorted le l).length_eq

lemma mem_pySorted {α : Type} (le : α → α → Bool) (l : List α) (x : α) :
    x ∈ pySorted le l ↔ x ∈ l :=
  (perm_pySorted le l).mem_iff

lemma length_rankPop (maximize : Bool) (pop : List Entry) :
    (rankPop maximize pop).length = pop.length :=
  length_pySorted _ pop

lemma sampleGo_length {α : Type} [Inhabited α] (idxs : ℕ → ℕ) :
    ∀ (k t : ℕ) (l : List α), k ≤ l.length → (sampleGo idxs t l k).length = k := by
  intro k
  induction k with
  | zero => intro t l _; rfl
  | succ k ih =>
      intro t l hk
      have hpos : 0 < l.length := Nat.lt_of_lt_of_le (Nat.succ_pos k) hk
      have hi : idxs t % l.length < l.length := Nat.mod_lt _ hpos
      unfold sampleGo
      rw [List.length_cons, ih (t + 1) (l.eraseIdx (idxs t % l.length))]
      rw [List.length_eraseIdx, if_pos hi]
      omega

lemma sampleGo_subset {α : Type} [Inhabited α] (idxs : ℕ → ℕ) :
    ∀ (k t : ℕ) (l : List α), k ≤ l.length →
      ∀ x ∈ sampleGo idxs t l k, x ∈ l := by
  intro k
  induction k with
  | zero => intro t l _ x hx; exact absurd hx (List.not_mem_nil x)
  | succ k ih =>
      intro t l hk x hx
      have hpos : 0 < l.length := Nat.lt_of_lt_of_le (Nat.succ_pos k) hk
      have hi : idxs t % l.length < l.length := Nat.mod_lt _ hpos
      unfold sampleGo at hx
      rcases List.mem_cons.mp hx with h | h
      · rw [h, List.getD_eq_getElem l default hi]
        exact List.getElem_mem hi
      · have hk2 : k ≤ (l.eraseIdx (idxs t % l.length)).length := by
          rw [List.length_eraseIdx, if_pos hi]
          omega
        exact List.eraseIdx_subset l _ (ih (t + 1) _ hk2 x h)

lemma pyRandomSample_ok_length {α : Type} [Inhabited α] (idxs : ℕ → ℕ)
    (l : List α) (k : ℕ) (res : List α)
    (h : pyRandomSample idxs l k = .ok res) : res.length = k := by
  unfold pyRandomSample at h
  split at h
  · exact absurd h (by simp)
  · rename_i hnot
    injection h with h
    rw [← h]
    exact sampleGo_length idxs k 0 l (by omega)

lemma pyRandomSample_ok_subset {α : Type} [Inhabited α] (idxs : ℕ → ℕ)
    (l : List α) (k : ℕ) (res : List α)
    (h : pyRandomSample idxs l k = .ok res) : ∀ x ∈ res, x ∈ l := by
  unfold pyRandomSample at h
  split at h
  · exact absurd h (by simp)
  · rename_i hnot
    injection h with h
    rw [← h]
    exact sampleGo_subset idxs k 0 l (by omega)

lemma mateAll_ok_length (F : PyInd → ℤ) (R : ℕ → MateRnd) (inds : List PyInd) :
    ∀ (ps : List (ℕ × ℕ)) (nid k : ℕ) (l : List Entry),
      mateAll F R inds ps nid k = .ok l → l.length = ps.length := by
  intro ps
  induction ps with
  | nil =>
      intro nid k l h
      injection h with h
      rw [← h]
      rfl
  | cons p ps ih =>
      intro nid k l h
      unfold mateAll at h
      split at h
      · exact absurd h (by simp)
      · split at h
        · exact absurd h (by simp)
        · rename_i e _ rest hrest
          injection h with h
          rw [← h, List.length_cons, ih (nid + 1) (k + 1) rest hrest, List.length_cons]

lemma randomPairsGo_ok_length (draws : ℕ → ℕ × ℕ) (s : ℕ) (n : ℤ) :
    ∀ (fuel t : ℕ) (pairs res : List (ℕ × ℕ)),
      randomPairsGo draws s n fuel t pairs = some (.ok res) →
      (res.length : ℤ) = n := by
  intro fuel
  induction fuel with
  | zero => intro t pairs res h; exact absurd h (by simp [randomPairsGo])
  | succ fuel ih =>
      intro t pairs res h
      unfold randomPairsGo at h
      split_ifs at h with h1 h2 h3
      · injection h with h
        injection h with h
        rw [← h]
        exact h1
      · exact absurd h (by simp)
      · exact ih (t + 1) pairs res h
      · exact ih (t + 1) _ res h

/-- A successful repopulation restores the population to exactly the target
size (offspring for every drawn pair, merged with the surviving ancestors). -/
lemma repopulate_ok_length (F : PyInd → ℤ) (R : ℕ → MateRnd)
    (draws : ℕ → ℕ × ℕ) (fuel size : ℕ) (ea : List Entry) (nid : ℕ)
    (pop : List Entry) (nid2 : ℕ)
    (h : repopulate F R draws fuel size ea nid = some (.ok (pop, nid2))) :
    pop.length = size := by
  simp only [repopulate] at h
  split at h
  · exact absurd h (by simp)
  · exact absurd h (by simp)
  · rename_i ips hips
    split at h
    · exact absurd h (by simp)
    · rename_i off hoff
      injection h with h
      injection h with h
      have h1 : (ips.length : ℤ) = (size : ℤ) - (ea.length : ℤ) := by
        have := randomPairsGo_ok_length draws (ea.map (·.ind)).length
          ((size : ℤ) - (ea.length : ℤ)) fuel 0 [] ips hips
        exact this
      have h2 : off.length = ips.length :=
        mateAll_ok_length F R (ea.map (·.ind)) ips nid 0 off hoff
      have h3 : pop = off ++ ea := by
        injection h with h4 _
        exact h4.symm
      rw [h3, List.length_append, h2]
      omega

/-- A successful selection returns exactly `n_fittest + n_random_unfit`
survivors whenever the evaluated population is at least that large. -/
lemma pySelect_ok_length (maximize : Bool) (idxs : ℕ → ℕ) (pop : List Entry)
    (nF nU : ℕ) (sel : List Entry)
    (hsz : nF + nU ≤ pop.length)
    (h : pySelect maximize idxs pop nF nU = .ok sel) :
    sel.length = nF + nU := by
  simp only [pySelect] at h
  cases hs : pyRandomSample idxs ((rankPop maximize pop).drop nF) nU with
  | error e => rw [hs] at h; exact absurd h (by simp [Except.map])
  | ok unfit =>
      rw [hs] at h
      simp only [Except.map] at h
      injection h with h
      rw [← h, List.length_append, List.length_take, length_rankPop]
      rw [pyRandomSample_ok_length idxs _ nU unfit hs]
      omega

/-! ## Supporting lemmas: legend update (C6) -/

lemma rankLe_trans (m : Bool) (a b c : Entry) (h1 : rankLe m a b = true)
    (h2 : rankLe m b c = true) : rankLe m a c = true := by
  cases m
  · simp [rankLe] at h1 h2 ⊢
    exact le_trans h1 h2
  · simp [rankLe] at h1 h2 ⊢
    exact le_trans h2 h1

lemma rankLe_total (m : Bool) (a b : Entry) :
    rankLe m a b = true ∨ rankLe m b a = true := by
  cases m
  · simp [rankLe]
    exact le_total a.fit b.fit
  · simp [rankLe]
    exact le_total b.fit a.fit

lemma rankLe_refl (m : Bool) (a : Entry) : rankLe m a a = true := by
  cases m <;> simp [rankLe]

lemma pairwise_insSorted {α : Type} (le : α → α → Bool)
    (htrans : ∀ a b c, le a b = true → le b c = true → le a c = true)
    (htotal : ∀ a b, le a b = true ∨ le b a = true)
    (e : α) (l : List α) (hl : List.Pairwise (fun a b => le a b = true) l) :
    List.Pairwise (fun a b => le a b = true) (insSorted le e l) := by
  induction l with
  | nil => exact List.pairwise_singleton _ e
  | cons x xs ih =>
      rw [List.pairwise_cons] at hl
      unfold insSorted
      split
      · rename_i hxe
        rw [List.pairwise_cons]
        refine ⟨?_, ih hl.2⟩
        intro y hy
        rcases List.mem_cons.mp ((perm_insSorted le e xs).mem_iff.mp hy) with hym | hym
        · rw [hym]
          exact hxe
        · exact hl.1 y hym
      · rename_i hxe
        have hex : le e x = true := by
          rcases htotal e x with h | h
          · exact h
          · exact absurd h hxe
        rw [List.pairwise_cons]
        refine ⟨?_, List.pairwise_cons.mpr hl⟩
        intro y hy
        rcases List.mem_cons.mp hy with hym | hym
        · rw [hym]
          exact hex
        · exact htrans e x y hex (hl.1 y hym)

lemma pairwise_pySorted {α : Type} (le : α → α → Bool)
    (htrans : ∀ a b c, le a b = true → le b c = true → le a c = true)
    (htotal : ∀ a b, le a b = true ∨ le b a = true) (l : List α) :
    List.Pairwise (fun a b => le a b = true) (pySorted le l) := by
  induction l with
  | nil => exact List.Pairwise.nil
  | cons x xs ih => exact pairwise_insSorted le htrans htotal x (pySorted le xs) ih

/-- The internal fold of `dedupById`. -/
def dedupStep (acc : List Entry) (e : Entry) : List Entry :=
  if acc.any (fun x => x.eid == e.eid) then acc else acc ++ [e]

lemma mem_dedupStep (acc : List Entry) (y x : Entry) (hx : x ∈ acc) :
    x ∈ dedupStep acc y := by
  unfold dedupStep
  split
  · exact hx
  · exact List.mem_append_left _ hx

lemma dedupById_eq_foldl (l : List Entry) :
    dedupById l = l.foldl dedupStep [] := rfl

lemma subset_foldl_dedupStep :
    ∀ (l acc : List Entry), ∀ x ∈ acc, x ∈ l.foldl dedupStep acc := by
  intro l
  induction l with
  | nil => intro acc x hx; exact hx
  | cons y l ih =>
      intro acc x hx
      exact ih (dedupStep acc y) x (mem_dedupStep acc y x hx)

lemma mem_foldl_dedupStep :
    ∀ (l acc : List Entry), ∀ x ∈ l.foldl dedupStep acc, x ∈ acc ∨ x ∈ l := by
  intro l
  induction l with
  | nil => intro acc x hx; exact Or.inl hx
  | cons y l ih =>
      intro acc x hx
      rcases ih (dedupStep acc y) x hx with h | h
      · unfold dedupStep at h
        split at h
        · exact Or.inl h
        · rcases List.mem_append.mp h with h2 | h2
          · exact Or.inl h2
          · rw [List.mem_singleton] at h2
            exact Or.inr (h2 ▸ List.mem_cons_self y l)
      · exact Or.inr (List.mem_cons_of_mem y h)

lemma exists_foldl_dedupStep :
    ∀ (l acc : List Entry), ∀ e, (e ∈ acc ∨ e ∈ l) →
      ∃ f, f ∈ l.foldl dedupStep acc ∧ f.eid = e.eid := by
  intro l
  induction l with
  | nil =>
      intro acc e he
      rcases he with h | h
      · exact ⟨e, h, rfl⟩
      · exact absurd h (List.not_mem_nil e)
  | cons y l ih =>
      intro acc e he
      rcases he with h | h
      · exact ih (dedupStep acc y) e (Or.inl (mem_dedupStep acc y e h))
      · rcases List.mem_cons.mp h with h2 | h2
        · subst h2
          by_cases hany : acc.any (fun x => x.eid == e.eid) = true
          · obtain ⟨x, hxacc, hxeq⟩ := List.any_eq_true.mp hany
            have hxid : x.eid = e.eid := by simpa using hxeq
            obtain ⟨f, hf, hfid⟩ :=
              ih (dedupStep acc e) x (Or.inl (mem_dedupStep acc e x hxacc))
            exact ⟨f, hf, hfid.trans hxid⟩
          · exact ih (dedupStep acc e) e (Or.inl (by
              unfold dedupStep
              rw [if_neg hany]
              exact List.mem_append_right _ (List.mem_singleton.mpr rfl)))
        · exact ih (dedupStep acc y) e (Or.inr h2)

lemma dedupById_subset (l : List Entry) : ∀ x ∈ dedupById l, x ∈ l := by
  intro x hx
  rcases mem_foldl_dedupStep l [] x hx with h | h
  · exact absurd h (List.not_mem_nil x)
  · exact h

lemma dedupById_exists (l : List Entry) (e : Entry) (he : e ∈ l) :
    ∃ f, f ∈ dedupById l ∧ f.eid = e.eid :=
  exists_foldl_dedupStep l [] e (Or.inr he)

/-- The best (fitness) value contained in a legend list, as a `WithBot ℤ`
(`⊥` for the empty list). -/
def bestFit (l : List Entry) : WithBot ℤ :=
  (l.map (·.fit)).maximum

/-- C6 core step: merging contenders into the legend list can only improve
(or keep) the best fitness, in maximize mode, provided entries that share
an object identity carry the same fitness (always true in Python, where the
identity IS the tuple) and the legend capacity is positive. -/
lemma updateLegends_max_mono (nLeg : ℕ) (contenders legends : List Entry)
    (hco : ∀ e ∈ contenders ++ legends, ∀ f ∈ contenders ++ legends,
      e.eid = f.eid → e.fit = f.fit)
    (hleg : 1 ≤ nLeg) :
    bestFit legends ≤ bestFit (updateLegends true nLeg contenders legends) := by
  apply List.maximum_le_of_forall_le
  intro a ha
  obtain ⟨e, hmeme, hefit⟩ := List.mem_map.mp ha
  have hmemL : e ∈ contenders ++ legends := List.mem_append_right _ hmeme
  obtain ⟨f, hfD, hfid⟩ := dedupById_exists _ e hmemL
  have hffit : f.fit = e.fit :=
    hco f (dedupById_subset _ f hfD) e hmemL hfid
  have hfS : f ∈ rankPop true (dedupById (contenders ++ legends)) :=
    (mem_pySorted _ _ f).mpr hfD
  cases hS : rankPop true (dedupById (contenders ++ legends)) with
  | nil => rw [hS] at hfS; exact absurd hfS (List.not_mem_nil f)
  | cons hd tl =>
      have hpair := pairwise_pySorted (rankLe true) (rankLe_trans true)
        (rankLe_total true) (dedupById (contenders ++ legends))
      rw [show pySorted (rankLe true) (dedupById (contenders ++ legends)) =
        rankPop true (dedupById (contenders ++ legends)) from rfl, hS] at hpair
      rw [List.pairwise_cons] at hpair
      have hble : f.fit ≤ hd.fit := by
        rw [hS] at hfS
        rcases List.mem_cons.mp hfS with h | h
        · rw [h]
        · have := hpair.1 f h
          unfold rankLe at this
          simpa using this
      have hhd : hd ∈ updateLegends true nLeg contenders legends := by
        unfold updateLegends
        rw [hS]
        cases nLeg with
        | zero => omega
        | succ m => exact List.mem_cons_self hd _
      have hmax : (hd.fit : WithBot ℤ) ≤ bestFit (updateLegends true nLeg contenders legends) :=
        List.le_maximum_of_mem' (List.mem_map.mpr ⟨hd, hhd, rfl⟩)
      refine le_trans ?_ hmax
      rw [← hefit, ← hffit]
      exact_mod_cast hble

/-! ## Supporting lemmas: the identity-coherence invariant of a run (C6)

In Python the `eid` of an entry is the object identity of the
`(fitness, individual)` tuple, so two entries with the same `eid` are the
same tuple and in particular carry the same fitness.  The invariant below
states exactly that for the model, together with the freshness bound on
identities, and is preserved by every generation. -/

def entryConsistent (L : List Entry) : Prop :=
  ∀ e ∈ L, ∀ f ∈ L, e.eid = f.eid → e.fit = f.fit

def allBelow (L : List Entry) (n : ℕ) : Prop :=
  ∀ e ∈ L, e.eid < n

lemma entryConsistent_mono {L2 L : List Entry} (hsub : ∀ x ∈ L2, x ∈ L)
    (h : entryConsistent L) : entryConsistent L2 :=
  fun e he f hf heq => h e (hsub e he) f (hsub f hf) heq

lemma mateAll_ok_eid_bounds (F : PyInd → ℤ) (R : ℕ → MateRnd) (inds : List PyInd) :
    ∀ (ps : List (ℕ × ℕ)) (nid k : ℕ) (l : List Entry),
      mateAll F R inds ps nid k = .ok l →
      ∀ e ∈ l, nid ≤ e.eid ∧ e.eid < nid + ps.length := by
  intro ps
  induction ps with
  | nil =>
      intro nid k l h e he
      injection h with h
      rw [← h] at he
      exact absurd he (List.not_mem_nil e)
  | cons p ps ih =>
      intro nid k l h e he
      unfold mateAll at h
      split at h
      · exact absurd h (by simp)
      · rename_i e0 heq0
        split at h
        · exact absurd h (by simp)
        · rename_i rest hrest
          injection h with h
          rw [← h] at he
          have he0id : e0.eid = nid := by
            unfold mateAndEvaluate at heq0
            cases hm : indMate (R k).mask1 (R k).mask2 (R k).choiceMask
                (inds.getD p.1 default) (inds.getD p.2 default) with
            | error s => rw [hm] at heq0; exact absurd heq0 (by simp [Except.map])
            | ok off =>
                rw [hm] at heq0
                simp only [Except.map] at heq0
                injection heq0 with heq0
                rw [← heq0]
          rcases List.mem_cons.mp he with h2 | h2
          · rw [h2, he0id]
            simp only [List.length_cons]
            omega
          · have := ih (nid + 1) (k + 1) rest hrest e h2
            simp only [List.length_cons]
            omega

lemma mateAll_ok_consistent (F : PyInd → ℤ) (R : ℕ → MateRnd) (inds : List PyInd) :
    ∀ (ps : List (ℕ × ℕ)) (nid k : ℕ) (l : List Entry),
      mateAll F R inds ps nid k = .ok l → entryConsistent l := by
  intro ps
  induction ps with
  | nil =>
      intro nid k l h e he
      injection h with h
      rw [← h] at he
      exact absurd he (List.not_mem_nil e)
  | cons p ps ih =>
      intro nid k l h e he f hf heq
      unfold mateAll at h
      split at h
      · exact absurd h (by simp)
      · rename_i e0 heq0
        split at h
        · exact absurd h (by simp)
        · rename_i rest hrest
          injection h with h
          rw [← h] at he hf
          have he0id : e0.eid = nid := by
            unfold mateAndEvaluate at heq0
            cases hm : indMate (R k).mask1 (R k).mask2 (R k).choiceMask
                (inds.getD p.1 default) (inds.getD p.2 default) with
            | error s => rw [hm] at heq0; exact absurd heq0 (by simp [Except.map])
            | ok off =>
                rw [hm] at heq0
                simp only [Except.map] at heq0
                injection heq0 with heq0
                rw [← heq0]
          have hrb := mateAll_ok_eid_bounds F R inds ps (nid + 1) (k + 1) rest hrest
          rcases List.mem_cons.mp he with h2 | h2 <;>
            rcases List.mem_cons.mp hf with h3 | h3
          · rw [h2, h3]
          · exfalso
            have := (hrb f h3).1
            rw [h2, he0id] at heq
            omega
          · exfalso
            have := (hrb e h2).1
            rw [h3, he0id] at heq
            omega
          · exact ih (nid + 1) (k + 1) rest hrest e h2 f h3 heq

/-- A successful repopulation preserves identity-coherence and the
freshness bound (offspring get fresh identities above every existing one). -/
lemma repopulate_preserves (F : PyInd → ℤ) (R : ℕ → MateRnd)
    (draws : ℕ → ℕ × ℕ) (fuel size : ℕ) (ea legends : List Entry) (nid : ℕ)
    (pop : List Entry) (nid2 : ℕ)
    (hco : entryConsistent (ea ++ legends))
    (hb : allBelow (ea ++ legends) nid)
    (h : repopulate F R draws fuel size ea nid = some (.ok (pop, nid2))) :
    entryConsistent (pop ++ legends) ∧ allBelow (pop ++ legends) nid2 ∧ nid ≤ nid2 := by
  simp only [repopulate] at h
  split at h
  · exact absurd h (by simp)
  · exact absurd h (by simp)
  · rename_i ips hips
    split at h
    · exact absurd h (by simp)
    · rename_i off hoff
      injection h with h
      injection h with h
      have hpop : pop = off ++ ea := by
        injection h with h4 _
        exact h4.symm
      have hnid2 : nid2 = nid + ips.length := by
        injection h with _ h5
        exact h5.symm
      have hoffb := mateAll_ok_eid_bounds F R (ea.map (·.ind)) ips nid 0 off hoff
      have hoffco := mateAll_ok_consistent F R (ea.map (·.ind)) ips nid 0 off hoff
      have hsplit : ∀ x ∈ pop ++ legends, x ∈ off ∨ x ∈ ea ++ legends := by
        intro x hx
        rw [hpop] at hx
        rcases List.mem_append.mp hx with h1 | h1
        · rcases List.mem_append.mp h1 with h2 | h2
          · exact Or.inl h2
          · exact Or.inr (List.mem_append_left _ h2)
        · exact Or.inr (List.mem_append_right _ h1)
      refine ⟨?_, ?_, by omega⟩
      · intro e he f hf heq
        rcases hsplit e he with h1 | h1 <;> rcases hsplit f hf with h2 | h2
        · exact hoffco e h1 f h2 heq
        · exfalso
          have := (hoffb e h1).1
          have := hb f h2
          omega
        · exfalso
          have := (hoffb f h2).1
          have := hb e h1
          omega
        · exact hco e h1 f h2 heq
      · intro e he
        rcases hsplit e he with h1 | h1
        · have := (hoffb e h1).2
          omega
        · have := hb e h1
          omega

lemma pySelect_ok_subset (maximize : Bool) (idxs : ℕ → ℕ) (pop : List Entry)
    (nF nU : ℕ) (sel : List Entry)
    (h : pySelect maximize idxs pop nF nU = .ok sel) :
    ∀ x ∈ sel, x ∈ pop := by
  simp only [pySelect] at h
  cases hs : pyRandomSample idxs ((rankPop maximize pop).drop nF) nU with
  | error e => rw [hs] at h; exact absurd h (by simp [Except.map])
  | ok unfit =>
      rw [hs] at h
      simp only [Except.map] at h
      injection h with h
      intro x hx
      rw [← h] at hx
      rcases List.mem_append.mp hx with h1 | h1
      · exact (mem_pySorted _ _ x).mp (List.take_subset _ _ h1)
      · have := pyRandomSample_ok_subset idxs _ nU unfit hs x h1
        exact (mem_pySorted _ _ x).mp (List.drop_subset _ _ this)

lemma updateLegends_subset (m : Bool) (nLeg : ℕ) (cont leg : List Entry) :
    ∀ x ∈ updateLegends m nLeg cont leg, x ∈ cont ++ leg := by
  intro x hx
  unfold updateLegends at hx
  have h1 : x ∈ rankPop m (dedupById (cont ++ leg)) := List.take_subset _ _ hx
  exact dedupById_subset _ x ((mem_pySorted _ _ x).mp h1)

/-- One successful generation preserves the run invariant, and in maximize
mode the best legend fitness does not decrease. -/
lemma runGeneration_preserves (F : PyInd → ℤ) (R : ℕ → MateRnd)
    (draws : ℕ → ℕ × ℕ) (idxs : ℕ → ℕ) (fuel : ℕ) (m : Bool)
    (size nLeg nF nU : ℕ) (st st' : GenState)
    (hco : entryConsistent (st.cur ++ st.legends))
    (hb : allBelow (st.cur ++ st.legends) st.nextId)
    (hleg : 1 ≤ nLeg)
    (h : runGeneration F R draws idxs fuel m size nLeg nF nU st = some (.ok st')) :
    entryConsistent (st'.cur ++ st'.legends) ∧
    allBelow (st'.cur ++ st'.legends) st'.nextId ∧
    (m = true → bestFit st.legends ≤ bestFit st'.legends) := by
  simp only [runGeneration] at h
  split at h
  · exact absurd h (by simp)
  · exact absurd h (by simp)
  · rename_i pr pop nid2 hrep
    split at h
    · exact absurd h (by simp)
    · rename_i sel hsel
      injection h with h
      injection h with h
      obtain ⟨hco2, hb2, hnid⟩ :=
        repopulate_preserves F R draws fuel size st.cur st.legends st.nextId
          pop nid2 hco hb hrep
      have hselsub : ∀ x ∈ sel, x ∈ pop :=
        pySelect_ok_subset m idxs pop nF nU sel hsel
      have hsub : ∀ x ∈ st'.cur ++ st'.legends, x ∈ pop ++ st.legends := by
        intro x hx
        rw [← h] at hx
        rcases List.mem_append.mp hx with h1 | h1
        · exact List.mem_append_left _ (hselsub x h1)
        · have h2 := updateLegends_subset m nLeg (sel.take nLeg) st.legends x h1
          rcases List.mem_append.mp h2 with h3 | h3
          · exact List.mem_append_left _ (hselsub x (List.take_subset _ _ h3))
          · exact List.mem_append_right _ h3
      refine ⟨entryConsistent_mono hsub hco2, ?_, ?_⟩
      · intro e he
        have hnext : st'.nextId = nid2 := by rw [← h]
        rw [hnext]
        exact hb2 e (hsub e he)
      · intro hm
        subst hm
        have hleg2 : st'.legends =
            updateLegends true nLeg (sel.take nLeg) st.legends := by rw [← h]
        rw [hleg2]
        apply updateLegends_max_mono nLeg (sel.take nLeg) st.legends ?_ hleg
        apply entryConsistent_mono ?_ hco2
        intro x hx
        rcases List.mem_append.mp hx with h1 | h1
        · exact List.mem_append_left _ (hselsub x (List.take_subset _ _ h1))
        · exact List.mem_append_right _ h1

/-- The legend snapshots of a maximize-mode run form a best-fitness
non-decreasing chain (starting from the pre-run legend list). -/
lemma evolveGo_chain (F : PyInd → ℤ) (rnd : ℕ → GenRnd)
    (size nLeg nF nU : ℕ) (hleg : 1 ≤ nLeg) :
    ∀ (nGen g : ℕ) (st : GenState) (snaps : List (List Entry)),
      entryConsistent (st.cur ++ st.legends) →
      allBelow (st.cur ++ st.legends) st.nextId →
      evolveGo F rnd true size nLeg nF nU g nGen st = some (.ok snaps) →
      List.Chain' (fun p q => bestFit p ≤ bestFit q) (st.legends :: snaps) := by
  intro nGen
  induction nGen with
  | zero =>
      intro g st snaps _ _ h
      injection h with h
      injection h with h
      rw [← h]
      exact List.chain'_singleton _
  | succ nGen ih =>
      intro g st snaps hco hb h
      unfold evolveGo at h
      split at h
      · exact absurd h (by simp)
      · exact absurd h (by simp)
      · rename_i st2 hst2
        split at h
        · exact absurd h (by simp)
        · exact absurd h (by simp)
        · rename_i snaps2 hsn
          injection h with h
          injection h with h
          obtain ⟨hco2, hb2, hmono⟩ :=
            runGeneration_preserves F (rnd g).mateRnd (rnd g).draws (rnd g).idxs
              (rnd g).fuel true size nLeg nF nU st st2 hco hb hleg hst2
          rw [← h]
          exact List.chain'_cons.mpr ⟨hmono rfl, ih (g + 1) st2 snaps2 hco2 hb2 hsn⟩

/-! ## Claim theorems: legend monotonicity (C6) -/

/-- C6: in maximize mode, over any completed run of `evolve`, the best
fitness contained in the legend list never decreases from one yielded
snapshot to the next.  The hypotheses on the evaluated ancestors state
what `__init__` guarantees: the ancestor tuples are distinct objects
(identity-coherent) with identities below the allocation counter. -/
theorem C6_legend_best_nondecreasing (F : PyInd → ℤ) (rnd : ℕ → GenRnd)
    (size nLeg nF nU nGen : ℕ) (ea : List Entry) (snaps : List (List Entry))
    (hco : entryConsistent ea) (hb : allBelow ea ea.length) (hleg : 1 ≤ nLeg)
    (h : evolve F rnd true size nLeg ea nF nU nGen = some (.ok snaps)) :
    List.Chain' (fun p q => bestFit p ≤ bestFit q) snaps := by
  unfold evolve at h
  split at h
  · exact absurd h (by simp)
  · have hchain := evolveGo_chain F rnd size nLeg nF nU hleg nGen 0
      ⟨ea, [], ea.length⟩ snaps (by simpa using hco) (by simpa using hb) h
    exact hchain.tail

/-- Witness for C6: the one-generation maximize-mode run of the C5 scenario
yields the single snapshot `[e1, e2]`, a (trivially) non-decreasing chain,
via the theorem. -/
theorem C6_legend_best_nondecreasing_witness :
    List.Chain' (fun p q => bestFit p ≤ bestFit q)
      [[⟨0, 5, ⟨0, [], [5]⟩⟩, ⟨1, 3, ⟨0, [], [3]⟩⟩]] :=
  C6_legend_best_nondecreasing (fun ind => ind.chrom.headD 0)
    (fun _ => ⟨fun _ => ⟨[], [], []⟩, fun _ => (0, 0), fun _ => 0, 1⟩)
    2 2 1 1 1 [⟨0, 5, ⟨0, [], [5]⟩⟩, ⟨1, 3, ⟨0, [], [3]⟩⟩]
    [[⟨0, 5, ⟨0, [], [5]⟩⟩, ⟨1, 3, ⟨0, [], [3]⟩⟩]]
    (by
      intro e he f hf heq
      rcases List.mem_cons.mp he with rfl | he2
      · rcases List.mem_cons.mp hf with rfl | hf2
        · rfl
        · rcases List.mem_cons.mp hf2 with rfl | hf3
          · exact absurd heq (by decide)
          · exact absurd hf3 (List.not_mem_nil f)
      · rcases List.mem_cons.mp he2 with rfl | he3
        · rcases List.mem_cons.mp hf with rfl | hf2
          · exact absurd heq (by decide)
          · rcases List.mem_cons.mp hf2 with rfl | hf3
            · rfl
            · exact absurd hf3 (List.not_mem_nil f)
        · exact absurd he3 (List.not_mem_nil e))
    (by
      intro e he
      rcases List.mem_cons.mp he with rfl | he2
      · decide
      · rcases List.mem_cons.mp he2 with rfl | he3
        · decide
        · exact absurd he3 (List.not_mem_nil e))
    (by decide) rfl

/-- Witness for C9: each validation clause exercised at a concrete input. -/
theorem C9_construction_validation_witness :
    (popInit [⟨0, [], [0]⟩] 1 (fun _ => .ok (some (.num 1))) "maximise" 1).isOk = false ∧
    (popInit [⟨0, [], [0]⟩] 0 (fun _ => .ok (some (.num 1))) "maximize" 1).isOk = false ∧
    (popInit [⟨0, [], [0]⟩] 1 (fun _ => .ok (some (.num 1))) "maximize" 0).isOk = false ∧
    (popInit [] 1 (fun _ => .ok (some (.num 1))) "maximize" 1).isOk = false ∧
    (popInit [⟨0, [], [0]⟩] 2 (fun _ => .ok (some (.num 1))) "maximize" 1).isOk = false ∧
    (popInit [⟨0, [], [0]⟩] 1 (fun _ => .ok none) "maximize" 1).isOk = false ∧
    (popInit [⟨0, [], [0]⟩] 1 (fun _ => .error .typeErr) "maximize" 1).isOk = false ∧
    indMate [0] [0, 0] [1] ⟨0, [fun g => g], [5]⟩ ⟨0, [fun g => g, fun g => g], [7, 8]⟩ =
      .error "Incompatible species cant mate" :=
  ⟨C9_construction_validation.1 _ _ _ _ _ (by decide) (by decide),
   C9_construction_validation.2.1 _ _ _ _ _ (by decide),
   C9_construction_validation.2.2.1 _ _ _ _ _ (by decide),
   C9_construction_validation.2.2.2.1 _ _ _ _,
   C9_construction_validation.2.2.2.2.1 _ _ _ _ _ (by decide),
   C9_construction_validation.2.2.2.2.2.1 _ _ _ _ _ _ rfl,
   C9_construction_validation.2.2.2.2.2.2.1 _ _ _ _ _ _ rfl,
   C9_construction_validation.2.2.2.2.2.2.2 _ _ _ _ _ (by decide)⟩

/-! ## Supporting lemmas: counting distinct unordered pairs (C10) -/

/-- Canonical (sorted) representative of an unordered pair. -/
def sortPair (p : ℕ × ℕ) : ℕ × ℕ := (min p.1 p.2, max p.1 p.2)

/-- All strictly sorted index pairs below `s` — the distinct unordered
non-self pairs that `random_pairs` could ever collect. -/
def allPairs (s : ℕ) : List (ℕ × ℕ) :=
  (List.range s).flatMap (fun b => (List.range b).map (fun a => (a, b)))

lemma length_allPairs (s : ℕ) : (allPairs s).length = Nat.choose s 2 := by
  induction s with
  | zero => rfl
  | succ s ih =>
      rw [allPairs, List.range_succ, List.flatMap_append, List.length_append]
      rw [show allPairs s = (List.range s).flatMap
        (fun b => (List.range b).map (fun a => (a, b))) from rfl] at ih
      rw [ih]
      simp only [List.flatMap_cons, List.flatMap_nil, List.append_nil,
        List.length_map, List.length_range]
      rw [Nat.choose_succ_succ s 1, Nat.choose_one_right]
      have hc : s.choose (Nat.succ 1) = s.choose 2 := rfl
      rw [hc]
      omega

lemma mem_allPairs (s : ℕ) (p : ℕ × ℕ) :
    p ∈ allPairs s ↔ p.1 < p.2 ∧ p.2 < s := by
  obtain ⟨x, y⟩ := p
  simp only [allPairs, List.mem_flatMap, List.mem_map, List.mem_range]
  constructor
  · rintro ⟨b, hb, a, ha, heq⟩
    injection heq with h1 h2
    subst h1
    subst h2
    exact ⟨ha, hb⟩
  · rintro ⟨h1, h2⟩
    exact ⟨y, h2, x, h1, rfl⟩

lemma nodup_allPairs (s : ℕ) : (allPairs s).Nodup := by
  induction s with
  | zero => exact List.nodup_nil
  | succ s ih =>
      rw [allPairs, List.range_succ, List.flatMap_append]
      simp only [List.flatMap_cons, List.flatMap_nil, List.append_nil]
      apply List.Nodup.append
      · exact ih
      · exact (List.nodup_range s).map (fun a b h => by injection h)
      · intro q hq1 hq2
        have h1 := (mem_allPairs s q).mp hq1
        obtain ⟨a, _, heq⟩ := List.mem_map.mp hq2
        rw [← heq] at h1
        omega

lemma sortPair_cases (pa pb qa qb : ℕ)
    (h : sortPair (pa, pb) = sortPair (qa, qb)) :
    (qa = pa ∧ qb = pb) ∨ (qa = pb ∧ qb = pa) := by
  simp only [sortPair, Prod.mk.injEq, Nat.min_def, Nat.max_def] at h
  split_ifs at h <;> omega

/-- The invariant of the `random_pairs` accumulation: every collected pair
is a valid non-self pair of indices below `s`, and no unordered pair is
collected twice (the canonical representatives are distinct). -/
def pairsInv (s : ℕ) (pairs : List (ℕ × ℕ)) : Prop :=
  (∀ p ∈ pairs, p.1 < s ∧ p.2 < s ∧ p.1 ≠ p.2) ∧ (pairs.map sortPair).Nodup

lemma pairsInv_nil (s : ℕ) : pairsInv s [] :=
  ⟨fun p hp => absurd hp (List.not_mem_nil p), List.nodup_nil⟩

lemma pairsInv_length_le (s : ℕ) (pairs : List (ℕ × ℕ)) (h : pairsInv s pairs) :
    pairs.length ≤ Nat.choose s 2 := by
  have hsub : (pairs.map sortPair) ⊆ allPairs s := by
    intro q hq
    obtain ⟨p, hp, heq⟩ := List.mem_map.mp hq
    obtain ⟨h1, h2, h3⟩ := h.1 p hp
    rw [← heq, mem_allPairs]
    simp only [sortPair]
    omega
  calc pairs.length = (pairs.map sortPair).length := (List.length_map _ _).symm
    _ ≤ (allPairs s).length := (h.2.subperm hsub).length_le
    _ = Nat.choose s 2 := length_allPairs s

lemma decodeDraw_valid (s : ℕ) (hs : 2 ≤ s) (d : ℕ × ℕ) :
    (decodeDraw s d).1 < s ∧ (decodeDraw s d).2 < s ∧
    (decodeDraw s d).1 ≠ (decodeDraw s d).2 := by
  have h1 : d.1 % s < s := Nat.mod_lt _ (by omega)
  have h2 : d.2 % (s - 1) < s - 1 := Nat.mod_lt _ (by omega)
  simp only [decodeDraw]
  split_ifs with h <;> omega

lemma pairsInv_append (s : ℕ) (pairs : List (ℕ × ℕ)) (ij : ℕ × ℕ)
    (h : pairsInv s pairs)
    (hij : ij.1 < s ∧ ij.2 < s ∧ ij.1 ≠ ij.2)
    (hnot : ¬(ij ∈ pairs ∨ (ij.2, ij.1) ∈ pairs)) :
    pairsInv s (pairs ++ [ij]) := by
  constructor
  · intro p hp
    rcases List.mem_append.mp hp with h1 | h1
    · exact h.1 p h1
    · rw [List.mem_singleton] at h1
      rw [h1]
      exact hij
  · rw [List.map_append]
    apply List.Nodup.append h.2 (List.nodup_singleton _)
    intro q hq1 hq2
    obtain ⟨p, hp, heq⟩ := List.mem_map.mp hq1
    simp only [List.map_cons, List.map_nil, List.mem_singleton] at hq2
    rw [hq2] at heq
    obtain ⟨x, y⟩ := p
    obtain ⟨i, j⟩ := ij
    rcases sortPair_cases x y i j heq with ⟨ha, hb⟩ | ⟨ha, hb⟩
    · exact hnot (Or.inl (by rw [ha, hb]; exact hp))
    · exact hnot (Or.inr (by rw [ha, hb]; exact hp))

/-- With at least two survivors and an unreachable target count, the
`while len(pairs) != n` loop never exits, whatever fuel and whatever random
draws: the collected-pairs counter is bounded by `C(s, 2)` and can never
equal a negative or too-large `n`. -/
lemma randomPairsGo_never (draws : ℕ → ℕ × ℕ) (s : ℕ) (n : ℤ) (hs : 2 ≤ s)
    (hn : n < 0 ∨ (Nat.choose s 2 : ℤ) < n) :
    ∀ (fuel t : ℕ) (pairs : List (ℕ × ℕ)), pairsInv s pairs →
      randomPairsGo draws s n fuel t pairs = none := by
  intro fuel
  induction fuel with
  | zero => intro t pairs _; rfl
  | succ fuel ih =>
      intro t pairs hinv
      have hbound := pairsInv_length_le s pairs hinv
      have hlen : ¬((pairs.length : ℤ) = n) := by
        have : (pairs.length : ℤ) ≤ (Nat.choose s 2 : ℤ) := by exact_mod_cast hbound
        omega
      unfold randomPairsGo
      rw [if_neg hlen, if_neg (by omega : ¬s < 2)]
      split_ifs with hmem
      · exact ih (t + 1) pairs hinv
      · exact ih (t + 1) _
          (pairsInv_append s pairs _ hinv (decodeDraw_valid s hs (draws t)) hmem)

/-! ## Claim theorems: pair-drawing termination (C10) -/

/-- C10 counterexample: with a single survivor (`s = 1`) and one requested
pair — more than the `C(1, 2) = 0` distinct unordered pairs that exist —
`random_pairs` does NOT loop forever as the claim states: on its very
first iteration `random.sample(indices, 2)` raises `ValueError`, so the
call terminates (exceptionally) at once, for any fuel. -/
theorem C10_single_survivor_terminates :
    random_pairs (fun _ => (0, 0)) 1 1 1 =
      some (.error "Sample larger than population or is negative") ∧
    Nat.choose 1 2 = 0 :=
  ⟨rfl, rfl⟩

/-- C10 (amended): with at least 2 survivors, `random_pairs` loops forever
exactly when asked for a negative count or for more distinct unordered
pairs than the `C(s, 2)` that exist — no fuel makes it return; with fewer
than 2 survivors and a nonzero count it instead terminates at once with
`random.sample`'s `ValueError`.  Consequently a generation of `evolve`
started from more survivors than the target size (as the first generation
is, when more than `size` ancestors are supplied — then the pair count is
negative) runs forever, and likewise when the deficit `size - s` exceeds
`C(s, 2)` for `s ≥ 2` survivors. -/
theorem C10_pair_drawing_termination :
    (∀ (draws : ℕ → ℕ × ℕ) (s : ℕ) (n : ℤ), 2 ≤ s →
      (n < 0 ∨ (Nat.choose s 2 : ℤ) < n) →
      ∀ fuel, random_pairs draws fuel s n = none) ∧
    (∀ (draws : ℕ → ℕ × ℕ) (s : ℕ) (n : ℤ) (fuel : ℕ), s < 2 → n ≠ 0 →
      random_pairs draws (fuel + 1) s n =
        some (.error "Sample larger than population or is negative")) ∧
    (∀ (F : PyInd → ℤ) (R : ℕ → MateRnd) (draws : ℕ → ℕ × ℕ) (idxs : ℕ → ℕ)
      (fuel : ℕ) (m : Bool) (size nLeg nF nU : ℕ) (st : GenState),
      1 ≤ size → size < st.cur.length →
      runGeneration F R draws idxs fuel m size nLeg nF nU st = none) ∧
    (∀ (F : PyInd → ℤ) (R : ℕ → MateRnd) (draws : ℕ → ℕ × ℕ) (idxs : ℕ → ℕ)
      (fuel : ℕ) (m : Bool) (size nLeg nF nU : ℕ) (st : GenState),
      2 ≤ st.cur.length →
      (Nat.choose st.cur.length 2 : ℤ) < (size : ℤ) - (st.cur.length : ℤ) →
      runGeneration F R draws idxs fuel m size nLeg nF nU st = none) := by
  have hgen : ∀ (F : PyInd → ℤ) (R : ℕ → MateRnd) (draws : ℕ → ℕ × ℕ)
      (idxs : ℕ → ℕ) (fuel : ℕ) (m : Bool) (size nLeg nF nU : ℕ) (st : GenState),
      2 ≤ st.cur.length →
      (((size : ℤ) - (st.cur.length : ℤ) < 0) ∨
        (Nat.choose st.cur.length 2 : ℤ) < (size : ℤ) - (st.cur.length : ℤ)) →
      runGeneration F R draws idxs fuel m size nLeg nF nU st = none := by
    intro F R draws idxs fuel m size nLeg nF nU st hs hn
    have hrp2 : random_pairs draws fuel st.cur.length
        ((size : ℤ) - (st.cur.length : ℤ)) = none :=
      randomPairsGo_never draws st.cur.length _ hs hn fuel 0 [] (pairsInv_nil _)
    have hrep : repopulate F R draws fuel size st.cur st.nextId = none := by
      simp only [repopulate]
      rw [List.length_map, hrp2]
    simp only [runGeneration, hrep]
  refine ⟨?_, ?_, ?_, ?_⟩
  · intro draws s n hs hn fuel
    exact randomPairsGo_never draws s n hs hn fuel 0 [] (pairsInv_nil s)
  · intro draws s n fuel hs hn
    unfold random_pairs randomPairsGo
    rw [if_neg (by simpa using fun h => hn h.symm), if_pos hs]
  · intro F R draws idxs fuel m size nLeg nF nU st h1 h2
    exact hgen F R draws idxs fuel m size nLeg nF nU st (by omega)
      (Or.inl (by omega))
  · intro F R draws idxs fuel m size nLeg nF nU st h1 h2
    exact hgen F R draws idxs fuel m size nLeg nF nU st h1 (Or.inr h2)

/-- Witness for C10: each clause at concrete inputs — 2 survivors asked for
2 pairs (only 1 exists) never terminate; 1 survivor asked for 1 pair errors
at once; a generation with 3 survivors and target size 2 (negative count)
diverges; a generation with 2 survivors and target size 5 (deficit 3 > 1)
diverges. -/
theorem C10_pair_drawing_termination_witness :
    random_pairs (fun _ => (0, 0)) 7 2 2 = none ∧
    random_pairs (fun _ => (0, 0)) 1 1 1 =
      some (.error "Sample larger than population or is negative") ∧
    runGeneration (fun ind => ind.chrom.headD 0) (fun _ => ⟨[], [], []⟩)
      (fun _ => (0, 0)) (fun _ => 0) 4 true 2 2 1 1
      ⟨[⟨0, 5, ⟨0, [], [5]⟩⟩, ⟨1, 3, ⟨0, [], [3]⟩⟩, ⟨2, 4, ⟨0, [], [4]⟩⟩], [], 3⟩ = none ∧
    runGeneration (fun ind => ind.chrom.headD 0) (fun _ => ⟨[], [], []⟩)
      (fun _ => (0, 0)) (fun _ => 0) 4 true 5 2 1 1
      ⟨[⟨0, 5, ⟨0, [], [5]⟩⟩, ⟨1, 3, ⟨0, [], [3]⟩⟩], [], 2⟩ = none :=
  ⟨C10_pair_drawing_termination.1 (fun _ => (0, 0)) 2 2 (by decide)
      (Or.inr (by decide)) 7,
   C10_pair_drawing_termination.2.1 (fun _ => (0, 0)) 1 1 0 (by decide) (by decide),
   C10_pair_drawing_termination.2.2.1 _ _ _ _ 4 true 2 2 1 1 _ (by decide) (by decide),
   C10_pair_drawing_termination.2.2.2 _ _ _ _ 4 true 5 2 1 1 _ (by decide) (by decide)⟩

/-! ## Claim theorems: selection size (C5) -/

/-- C5: whenever a generation of `evolve` completes successfully (the claim
range `n_fittest + n_random_unfit ≤ size` holding), the selected survivors
number exactly `n_fittest + n_random_unfit`; moreover they are produced by
`_select` from a repopulated population of exactly the target size — the
top `n_fittest` of the fitness ranking plus `n_random_unfit` drawn without
replacement from the remainder. -/
theorem C5_survivor_count (F : PyInd → ℤ) (R : ℕ → MateRnd)
    (draws : ℕ → ℕ × ℕ) (idxs : ℕ → ℕ) (fuel : ℕ) (maximize : Bool)
    (size nLeg nF nU : ℕ) (st st' : GenState)
    (hfit : nF + nU ≤ size)
    (hrun : runGeneration F R draws idxs fuel maximize size nLeg nF nU st =
      some (.ok st')) :
    st'.cur.length = nF + nU ∧
    ∃ pop nid2,
      repopulate F R draws fuel size st.cur st.nextId = some (.ok (pop, nid2)) ∧
      pop.length = size ∧
      pySelect maximize idxs pop nF nU = .ok st'.cur := by
  simp only [runGeneration] at hrun
  split at hrun
  · exact absurd hrun (by simp)
  · exact absurd hrun (by simp)
  · rename_i pr pop nid2 hrep
    split at hrun
    · exact absurd hrun (by simp)
    · rename_i sel hsel
      injection hrun with hrun
      injection hrun with hrun
      have hcur : st'.cur = sel := by rw [← hrun]
      have hpop : pop.length = size :=
        repopulate_ok_length F R draws fuel size st.cur st.nextId pop nid2 hrep
      refine ⟨?_, pop, nid2, hrep, hpop, hcur ▸ hsel⟩
      rw [hcur]
      exact pySelect_ok_length maximize idxs pop nF nU sel (hpop ▸ hfit) hsel

/-- Witness for C5: a two-individual population with `size = 2`,
`n_fittest = 1`, `n_random_unfit = 1`; the completed generation keeps
exactly 2 survivors. -/
theorem C5_survivor_count_witness :
    (GenState.mk [⟨0, 5, ⟨0, [], [5]⟩⟩, ⟨1, 3, ⟨0, [], [3]⟩⟩]
      [⟨0, 5, ⟨0, [], [5]⟩⟩, ⟨1, 3, ⟨0, [], [3]⟩⟩] 2).cur.length = 1 + 1 :=
  (C5_survivor_count (fun ind => ind.chrom.headD 0) (fun _ => ⟨[], [], []⟩)
    (fun _ => (0, 0)) (fun _ => 0) 1 true 2 2 1 1
    ⟨[⟨0, 5, ⟨0, [], [5]⟩⟩, ⟨1, 3, ⟨0, [], [3]⟩⟩], [], 2⟩
    ⟨[⟨0, 5, ⟨0, [], [5]⟩⟩, ⟨1, 3, ⟨0, [], [3]⟩⟩],
      [⟨0, 5, ⟨0, [], [5]⟩⟩, ⟨1, 3, ⟨0, [], [3]⟩⟩], 2⟩
    (by decide) rfl).1

end Amquery
